import Mathlib

/-!
Verification of the batch rename orchestrator of Barometer-2002/Batch-rename-icons.

The development is a shallow embedding of the TypeScript sources:
  - src/types.ts            (data model)
  - src/App.tsx             (sanitizer, name resolver, merge, orchestrator)
  - src/components/ResultsTable.tsx (oracle client analyzeFilenamesBatch, embedded service file)

JavaScript strings are modelled as Lean String (a list of characters);
String.prototype.toLowerCase is modelled as the per-character lowering lowerStr.
The opaque browser File handle on each record is not modelled: the orchestrator
logic never reads it.
-/

namespace BatchRename

/-- The four states of a queue record (types.ts, ProcessedFile.status). -/
inductive Status
  | pending
  | processing
  | completed
  | error
deriving DecidableEq

/-- Metadata triple stored on completion (types.ts, IconMetadata). -/
structure IconMetadata where
  englishName : String
  chineseName : String
  domainOrNote : String
deriving DecidableEq

/-- One queue record (types.ts, ProcessedFile). -/
structure ProcessedFile where
  id : String
  originalName : String
  newName : Option String
  status : Status
  metadata : Option IconMetadata
deriving DecidableEq

/-- One parsed oracle result row (types.ts, BatchResult). -/
structure BatchResult where
  id : String
  originalName : String
  english : String
  chinese : String
  domain : String
deriving DecidableEq

/-- The per-chunk payload prepared in processNextBatch (App.tsx lines 77-82). -/
structure ChunkData where
  id : String
  nameWithoutExt : String
  ext : String
  originalName : String
deriving DecidableEq

/-- Embedding of JavaScript String.prototype.toLowerCase as per-character lowering. -/
def lowerStr (s : String) : String := ⟨s.data.map Char.toLower⟩

/-! ## Sanitizer (App.tsx, sanitizePart, lines 40-50) -/

/-- The character class kept by sanitizePart's regex: ASCII letters, digits,
    CJK ideographs U+4E00 to U+9FA5, and, when allowDots, the literal dot. -/
def isAllowedChar (allowDots : Bool) (c : Char) : Bool :=
  (('a' ≤ c && c ≤ 'z') || ('A' ≤ c && c ≤ 'Z') || ('0' ≤ c && c ≤ '9')
    || (0x4e00 ≤ c.val && c.val ≤ 0x9fa5) || (allowDots && c == '.'))

/-- Replacement step: every character outside the class becomes an underscore
    (str.replace(regex, underscore)). -/
def replaceDisallowed (allowDots : Bool) (l : List Char) : List Char :=
  l.map (fun c => if isAllowedChar allowDots c then c else '_')

/-- Collapse runs of consecutive underscores to a single underscore
    (safe.replace of one-or-more underscores by one underscore). -/
def collapseUnderscores : List Char → List Char
  | [] => []
  | [c] => [c]
  | c :: d :: cs =>
    if c == '_' && d == '_' then collapseUnderscores (d :: cs)
    else c :: collapseUnderscores (d :: cs)

/-- Drop a single leading underscore, as the anchored start alternative of the
    edge-trimming regex does. -/
def dropLeadUnd : List Char → List Char
  | [] => []
  | c :: t => if c == '_' then t else c :: t

/-- Drop a single trailing underscore, as the anchored end alternative of the
    edge-trimming regex does. -/
def dropTrailUnd : List Char → List Char
  | [] => []
  | [c] => if c == '_' then [] else [c]
  | c :: d :: t => c :: dropTrailUnd (d :: t)

/-- Strip all leading and all trailing dots (the allowDots-only final trimming). -/
def stripEdgeDots (l : List Char) : List Char :=
  ((l.dropWhile (fun c => c == '.')).reverse.dropWhile (fun c => c == '.')).reverse

/-- sanitizePart (App.tsx lines 40-50). An absent (undefined) argument behaves
    like the empty string, which is also falsy in JavaScript. -/
def sanitizePart (str : String) (allowDots : Bool) : String :=
  if str = "" then "Unknown"
  else
    let safe := replaceDisallowed allowDots str.data
    let safe := collapseUnderscores safe
    let safe := dropTrailUnd (dropLeadUnd safe)
    let safe := if allowDots then stripEdgeDots safe else safe
    if safe = [] then "Unknown" else ⟨safe⟩

/-! ## Name resolver (App.tsx, processNextBatch merge, lines 126-139) -/

/-- Split a character list at its last dot: some (before, after) with
    l = before ++ dot :: after and after dot-free; none when l has no dot.
    This models originalName.lastIndexOf of the dot plus the two substrings. -/
def splitLastDot : List Char → Option (List Char × List Char)
  | [] => none
  | c :: cs =>
    match splitLastDot cs with
    | some (pre, suf) => some (c :: pre, suf)
    | none => if c == '.' then some ([], cs) else none

/-- The counter-th collision candidate: the base name itself for counter 0,
    otherwise the decimal counter preceded by an underscore is inserted
    immediately before the last dot of the base (or appended when the base
    has no dot), exactly as the loop body of App.tsx lines 130-138 builds it. -/
def candidateName (base : String) (counter : Nat) : String :=
  if counter = 0 then base
  else
    match splitLastDot base.data with
    | some (pre, suf) => ⟨pre ++ '_' :: (Nat.repr counter).data ++ '.' :: suf⟩
    | none => ⟨base.data ++ '_' :: (Nat.repr counter).data⟩

/-- The while loop of App.tsx lines 130-138: try candidates in order until one
    is not (case-insensitively) in the used-names registry. The loop always
    terminates because the candidates are pairwise distinct and the registry is
    finite; the fuel used.length + 1 is proved sufficient below, so the
    fuel-exhausted branch is never taken. -/
def resolveFrom (base : String) (used : List String) : Nat → Nat → String
  | counter, 0 => candidateName base counter
  | counter, fuel + 1 =>
    let c := candidateName base counter
    if used.contains (lowerStr c) then resolveFrom base used (counter + 1) fuel
    else c

/-- Collision resolution against the used-names registry (App.tsx lines 128-138). -/
def resolveUnique (base : String) (used : List String) : String :=
  resolveFrom base used 0 (used.length + 1)

/-! ## Merge of one oracle response (App.tsx, lines 110-152) -/

/-- The final name base built for a matched result: the three sanitized fields
    joined by double hyphens, followed by the original extension with its
    leading dot, or by nothing when the original name had no extension
    (App.tsx lines 119-126). -/
def baseNameFor (chunkData : List ChunkData) (fid : String) (res : BatchResult) : String :=
  let pData := chunkData.find? (fun d => d.id == fid)
  let originalExt : String :=
    match pData with
    | some d => if d.ext ≠ "" then ⟨'.' :: d.ext.data⟩ else ""
    | none => ""
  sanitizePart res.english false ++ "--" ++ sanitizePart res.chinese false ++ "--"
    ++ sanitizePart res.domain true ++ originalExt

/-- The body of the merge map for one record, threading the mutable used-names
    set: records outside the chunk pass through; a chunk record with no
    matching result id becomes error; a matched chunk record becomes completed
    with the resolved unique name (registered in the set) and its metadata. -/
def mergeOne (chunkIds : List String) (chunkData : List ChunkData)
    (results : List BatchResult) (used : List String) (f : ProcessedFile) :
    ProcessedFile × List String :=
  if chunkIds.contains f.id then
    match results.find? (fun r => r.id == f.id) with
    | none => ({ f with status := .error }, used)
    | some res =>
      let uniqueName := resolveUnique (baseNameFor chunkData f.id res) used
      ({ f with
          status := .completed
          newName := some uniqueName
          metadata := some ⟨sanitizePart res.english false, sanitizePart res.chinese false,
            sanitizePart res.domain true⟩ },
        lowerStr uniqueName :: used)
  else (f, used)

/-- The whole merge map of App.tsx lines 110-152 over the queue, left to right,
    threading the used-names registry. -/
def mergeFold (chunkIds : List String) (chunkData : List ChunkData)
    (results : List BatchResult) : List ProcessedFile → List String →
    List ProcessedFile × List String
  | [], used => ([], used)
  | f :: fs, used =>
    let p := mergeOne chunkIds chunkData results used f
    let q := mergeFold chunkIds chunkData results fs p.2
    (p.1 :: q.1, q.2)

/-! ## Oracle client (services/geminiService.ts, analyzeFilenamesBatch,
    embedded in src/components/ResultsTable.tsx lines 137-222) -/

/-- Outcome of one generateContent call, as the client's try block observes it:
    a response with empty or missing text, a response whose (fence-stripped)
    text parses to a list of rows, a rate-limit or service-unavailable error
    (status 429 or 503), or any other error (including parse errors). -/
inductive CallOutcome
  | emptyText
  | payload (rs : List BatchResult)
  | transient
  | failure
deriving DecidableEq

/-- The retry loop of analyzeFilenamesBatch. The first component is the value
    returned (ok) or the terminal re-raise (error); the second lists the sleeps
    performed before each retry, in milliseconds. The counter retries starts at
    3 and each transient failure with retries left waits 3000 * (4 - retries)
    then decrements; a transient failure with no retries left, and any other
    error, is re-thrown. -/
def attemptLoop (oracle : Nat → CallOutcome) :
    Nat → Nat → Except Unit (List BatchResult) × List Nat
  | 0, k =>
    match oracle k with
    | .emptyText => (.ok [], [])
    | .payload rs => (.ok rs, [])
    | .transient => (.error (), [])
    | .failure => (.error (), [])
  | r + 1, k =>
    match oracle k with
    | .emptyText => (.ok [], [])
    | .payload rs => (.ok rs, [])
    | .transient =>
      let p := attemptLoop oracle r (k + 1)
      (p.1, 3000 * (4 - (r + 1)) :: p.2)
    | .failure => (.error (), [])

/-- analyzeFilenamesBatch as a function of the sequence of call outcomes:
    the loop starts with retries = 3 at the first call. -/
def analyzeFilenamesBatch (oracle : Nat → CallOutcome) :
    Except Unit (List BatchResult) × List Nat :=
  attemptLoop oracle 3 0

/-! ## Orchestrator (App.tsx, the processing effect and the handlers) -/

/-- CHUNK_SIZE (App.tsx line 12). -/
def CHUNK_SIZE : Nat := 50

/-- files.filter of status pending (App.tsx line 56). -/
def pendingFilter (files : List ProcessedFile) : List ProcessedFile :=
  files.filter (fun f => f.status == Status.pending)

/-- pendingFiles.slice(0, n) (App.tsx line 73): the first n pending records in
    enqueue order. -/
def selectChunk (n : Nat) (files : List ProcessedFile) : List ProcessedFile :=
  (pendingFilter files).take n

/-- The status update of App.tsx lines 90-96: chunk members become processing,
    any other record still in processing becomes error. -/
def startChunkFiles (chunkIds : List String) (files : List ProcessedFile) :
    List ProcessedFile :=
  files.map (fun f =>
    if chunkIds.contains f.id then { f with status := .processing }
    else if f.status == Status.processing then { f with status := .error }
    else f)

/-- The zombie healing of App.tsx line 62: every processing record becomes error. -/
def healZombies (files : List ProcessedFile) : List ProcessedFile :=
  files.map (fun f =>
    if f.status == Status.processing then { f with status := .error } else f)

/-- The catch branch of App.tsx lines 156-158: every chunk record becomes error. -/
def errorChunk (chunkIds : List String) (files : List ProcessedFile) :
    List ProcessedFile :=
  files.map (fun f =>
    if chunkIds.contains f.id then { f with status := .error } else f)

/-- handleStopProcessing's queue update (App.tsx lines 182-185): every
    processing record reverts to pending. -/
def revertProcessing (files : List ProcessedFile) : List ProcessedFile :=
  files.map (fun f =>
    if f.status == Status.processing then { f with status := .pending } else f)

/-- handleDeleteFile (App.tsx lines 36-38). -/
def handleDeleteFile (id : String) (files : List ProcessedFile) :
    List ProcessedFile :=
  files.filter (fun f => !(f.id == id))

/-- A freshly enqueued record (handleFilesSelected, App.tsx lines 26-32). -/
def mkPendingFile (id originalName : String) : ProcessedFile :=
  { id := id, originalName := originalName, newName := none,
    status := .pending, metadata := none }

/-- The used-names registry seeded before a chunk's call (App.tsx lines
    100-105): the lowercased newName of every completed record whose newName is
    set and non-empty (JavaScript truthiness), in queue order. -/
def usedNamesOf (files : List ProcessedFile) : List String :=
  files.filterMap (fun f =>
    match f.newName with
    | some n => if n ≠ "" && f.status == Status.completed then some (lowerStr n) else none
    | none => none)

/-- The nameWithoutExt and ext fields prepared for a chunk record (App.tsx
    lines 77-82), splitting originalName at its last dot. -/
def toChunkData (f : ProcessedFile) : ChunkData :=
  match splitLastDot f.originalName.data with
  | some (pre, suf) => ⟨f.id, ⟨pre⟩, ⟨suf⟩, f.originalName⟩
  | none => ⟨f.id, f.originalName, "", f.originalName⟩

/-- What the effect body decides before any oracle call (App.tsx lines 56-73). -/
inductive CycleDecision
  | heal (files : List ProcessedFile)
  | finish
  | callOracle (chunk : List ProcessedFile)
deriving DecidableEq

/-- The front of the processing effect (App.tsx lines 56-73): with no pending
    records, heal zombies if any processing record exists, otherwise end the
    run; with pending records, take the first CHUNK_SIZE of them as the chunk. -/
def cycleCheck (files : List ProcessedFile) : CycleDecision :=
  let pendingFiles := pendingFilter files
  if pendingFiles.isEmpty then
    if files.any (fun f => f.status == Status.processing) then .heal (healZombies files)
    else .finish
  else .callOracle (selectChunk CHUNK_SIZE files)

/-- The data a running oracle call holds: the chunk ids, the prepared chunk
    payload, and the used-names registry captured at chunk start. -/
structure Inflight where
  chunkIds : List String
  chunkData : List ChunkData
  used : List String
deriving DecidableEq

/-- The captured in-flight data of one cycle start on the current queue. -/
def mkInflight (files : List ProcessedFile) : Inflight :=
  ⟨(selectChunk CHUNK_SIZE files).map (fun f => f.id),
    (selectChunk CHUNK_SIZE files).map toChunkData,
    usedNamesOf files⟩

/-- The orchestrator state: the queue, the isProcessing flag, the
    isRequestInFlight guard, and the outstanding (not yet merged) oracle calls.
    The guard is a plain boolean cleared by stop and by each call's finally
    block, so several calls can be outstanding at once. -/
structure SysState where
  files : List ProcessedFile
  isProcessing : Bool
  guard : Bool
  calls : List Inflight
deriving DecidableEq

/-- The initial state: empty queue, idle. -/
def initState : SysState :=
  { files := [], isProcessing := false, guard := false, calls := [] }

/-- One observable transition of the App component. Uploads are only enabled
    while not processing; deletion is always enabled; the effect steps
    (startCycle, heal, finish) require isProcessing and a clear in-flight
    guard; a merge resolves any outstanding call, in any order, and its finally
    block clears the guard. -/
inductive Step : SysState → SysState → Prop
  | upload (s : SysState) (newFiles : List (String × String))
      (h : s.isProcessing = false) :
      Step s { s with files := s.files ++ newFiles.map (fun p => mkPendingFile p.1 p.2) }
  | deleteFile (s : SysState) (id : String) :
      Step s { s with files := handleDeleteFile id s.files }
  | start (s : SysState) :
      Step s { s with isProcessing := true }
  | stop (s : SysState) :
      Step s ⟨revertProcessing s.files, false, false, s.calls⟩
  | restart (s : SysState) :
      Step s ⟨[], false, false, s.calls⟩
  | startCycle (s : SysState) (h1 : s.isProcessing = true) (h2 : s.guard = false)
      (h3 : pendingFilter s.files ≠ []) :
      Step s ⟨startChunkFiles ((selectChunk CHUNK_SIZE s.files).map (fun f => f.id)) s.files,
        s.isProcessing, true, mkInflight s.files :: s.calls⟩
  | heal (s : SysState) (h1 : s.isProcessing = true) (h2 : s.guard = false)
      (h3 : pendingFilter s.files = [])
      (h4 : s.files.any (fun f => f.status == Status.processing) = true) :
      Step s { s with files := healZombies s.files }
  | finish (s : SysState) (h1 : s.isProcessing = true) (h2 : s.guard = false)
      (h3 : pendingFilter s.files = [])
      (h4 : s.files.any (fun f => f.status == Status.processing) = false) :
      Step s { s with isProcessing := false }
  | mergeSuccess (s : SysState) (c : Inflight) (results : List BatchResult)
      (hc : c ∈ s.calls) :
      Step s ⟨(mergeFold c.chunkIds c.chunkData results s.files c.used).1,
        s.isProcessing, false, s.calls.erase c⟩
  | mergeFailure (s : SysState) (c : Inflight) (hc : c ∈ s.calls) :
      Step s ⟨errorChunk c.chunkIds s.files, s.isProcessing, false, s.calls.erase c⟩

/-- Reachability from the initial state. -/
def Reach (s : SysState) : Prop :=
  Relation.ReflTransGen Step initState s

/-- Same transitions, with merges restricted to calls whose captured registry
    still contains every currently completed record's lowercased name at merge
    time. This restriction holds in every run without overlapping outstanding
    calls, because between a call's start and its merge the set of completed
    names can only shrink (stop, deletion, healing and failure merges never
    complete a record). -/
def coversCompleted (used : List String) (files : List ProcessedFile) : Prop :=
  ∀ f ∈ files, f.status = Status.completed → ∀ n, f.newName = some n →
    used.contains (lowerStr n) = true

/-- The transition relation of runs whose merges all satisfy coversCompleted. -/
inductive StepSafe : SysState → SysState → Prop
  | upload (s : SysState) (newFiles : List (String × String))
      (h : s.isProcessing = false) :
      StepSafe s { s with files := s.files ++ newFiles.map (fun p => mkPendingFile p.1 p.2) }
  | deleteFile (s : SysState) (id : String) :
      StepSafe s { s with files := handleDeleteFile id s.files }
  | start (s : SysState) :
      StepSafe s { s with isProcessing := true }
  | stop (s : SysState) :
      StepSafe s ⟨revertProcessing s.files, false, false, s.calls⟩
  | restart (s : SysState) :
      StepSafe s ⟨[], false, false, s.calls⟩
  | startCycle (s : SysState) (h1 : s.isProcessing = true) (h2 : s.guard = false)
      (h3 : pendingFilter s.files ≠ []) :
      StepSafe s ⟨startChunkFiles ((selectChunk CHUNK_SIZE s.files).map (fun f => f.id)) s.files,
        s.isProcessing, true, mkInflight s.files :: s.calls⟩
  | heal (s : SysState) (h1 : s.isProcessing = true) (h2 : s.guard = false)
      (h3 : pendingFilter s.files = [])
      (h4 : s.files.any (fun f => f.status == Status.processing) = true) :
      StepSafe s { s with files := healZombies s.files }
  | finish (s : SysState) (h1 : s.isProcessing = true) (h2 : s.guard = false)
      (h3 : pendingFilter s.files = [])
      (h4 : s.files.any (fun f => f.status == Status.processing) = false) :
      StepSafe s { s with isProcessing := false }
  | mergeSuccess (s : SysState) (c : Inflight) (results : List BatchResult)
      (hc : c ∈ s.calls) (hcov : coversCompleted c.used s.files) :
      StepSafe s ⟨(mergeFold c.chunkIds c.chunkData results s.files c.used).1,
        s.isProcessing, false, s.calls.erase c⟩
  | mergeFailure (s : SysState) (c : Inflight) (hc : c ∈ s.calls) :
      StepSafe s ⟨errorChunk c.chunkIds s.files, s.isProcessing, false, s.calls.erase c⟩

/-- Reachability under the covered-merge restriction. -/
def ReachSafe (s : SysState) : Prop :=
  Relation.ReflTransGen StepSafe initState s

/-- Two records clash when both are completed and their newName values agree
    case-insensitively. -/
def completedClash (f g : ProcessedFile) : Bool :=
  f.status == Status.completed && g.status == Status.completed &&
    (match f.newName, g.newName with
     | some m, some n => lowerStr m == lowerStr n
     | _, _ => false)

/-- No two records of the queue clash (the dedup invariant, pairwise). -/
def clashFree : List ProcessedFile → Bool
  | [] => true
  | f :: fs => fs.all (fun g => !completedClash f g) && clashFree fs

/-- Decimal value of a digit character list (proof helper for the decimal
    printer used by the collision counter). -/
def ofDigitChars (l : List Char) : Nat :=
  l.foldl (fun a c => 10 * a + (c.toNat - 48)) 0

/-- No two adjacent underscores (proof helper for the sanitizer). -/
def noAdj (l : List Char) : Prop :=
  List.Chain' (fun a b => ¬(a = '_' ∧ b = '_')) l

end BatchRename

namespace BatchRename

theorem toDigitsCore_append (b : Nat) :
    ∀ (fuel n : Nat) (ds : List Char),
      Nat.toDigitsCore b fuel n ds = Nat.toDigitsCore b fuel n [] ++ ds := by
  intro fuel
  induction fuel with
  | zero => intro n ds; simp [Nat.toDigitsCore]
  | succ f ih =>
    intro n ds
    simp only [Nat.toDigitsCore]
    by_cases h : n / b = 0
    · simp [h]
    · simp only [h, if_false]
      rw [ih (n / b) (_ :: ds), ih (n / b) [_], List.append_assoc]
      simp

theorem ofDigitChars_append_singleton (l : List Char) (c : Char) :
    ofDigitChars (l ++ [c]) = 10 * ofDigitChars l + (c.toNat - 48) := by
  simp [ofDigitChars, List.foldl_append]

theorem digitChar_toNat_sub (d : Nat) (h : d < 10) :
    (Nat.digitChar d).toNat - 48 = d := by
  interval_cases d <;> decide

theorem ofDigitChars_toDigitsCore :
    ∀ (fuel n : Nat), n < fuel →
      ofDigitChars (Nat.toDigitsCore 10 fuel n []) = n := by
  intro fuel
  induction fuel with
  | zero => intro n h; omega
  | succ f ih =>
    intro n h
    simp only [Nat.toDigitsCore]
    by_cases h0 : n / 10 = 0
    · have hn : n < 10 := (Nat.div_eq_zero_iff (by norm_num)).mp h0
      simp only [h0, if_true, ofDigitChars, List.foldl, Nat.mod_eq_of_lt hn, Nat.mul_zero,
        Nat.zero_add]
      exact digitChar_toNat_sub n hn
    · simp only [h0, if_false]
      rw [toDigitsCore_append, ofDigitChars_append_singleton,
        digitChar_toNat_sub _ (Nat.mod_lt _ (by norm_num))]
      have hn0 : 0 < n := by
        rcases Nat.eq_zero_or_pos n with h' | h'
        · subst h'; simp at h0
        · exact h'
      have : n / 10 < f := by
        have := Nat.div_lt_self hn0 (by norm_num : (1:Nat) < 10)
        omega
      rw [ih (n / 10) this]
      omega

theorem repr_data_eq (n : Nat) :
    (Nat.repr n).data = Nat.toDigitsCore 10 (n + 1) n [] := rfl

theorem natRepr_injective : Function.Injective Nat.repr := by
  intro m n h
  have hd : (Nat.repr m).data = (Nat.repr n).data := by rw [h]
  rw [repr_data_eq, repr_data_eq] at hd
  have hm := ofDigitChars_toDigitsCore (m + 1) m (Nat.lt_succ_self m)
  have hn := ofDigitChars_toDigitsCore (n + 1) n (Nat.lt_succ_self n)
  rw [hd] at hm
  exact hm.symm.trans hn

theorem toDigitsCore_mem_digit :
    ∀ (fuel n : Nat) (c : Char), c ∈ Nat.toDigitsCore 10 fuel n [] →
      ∃ d, d < 10 ∧ c = Nat.digitChar d := by
  intro fuel
  induction fuel with
  | zero => intro n c h; simp [Nat.toDigitsCore] at h
  | succ f ih =>
    intro n c h
    simp only [Nat.toDigitsCore] at h
    by_cases h0 : n / 10 = 0
    · simp [h0] at h
      exact ⟨n % 10, Nat.mod_lt _ (by norm_num), h⟩
    · simp only [h0, if_false] at h
      rw [toDigitsCore_append] at h
      rcases List.mem_append.mp h with h' | h'
      · exact ih (n / 10) c h'
      · simp at h'
        exact ⟨n % 10, Nat.mod_lt _ (by norm_num), h'⟩

theorem toLower_digitChar (d : Nat) (h : d < 10) :
    Char.toLower (Nat.digitChar d) = Nat.digitChar d := by
  interval_cases d <;> decide

theorem repr_char_toLower (n : Nat) :
    ∀ c ∈ (Nat.repr n).data, Char.toLower c = c := by
  intro c hc
  rw [repr_data_eq] at hc
  obtain ⟨d, hd, rfl⟩ := toDigitsCore_mem_digit (n + 1) n c hc
  exact toLower_digitChar d hd

theorem repr_data_ne_nil (n : Nat) : (Nat.repr n).data ≠ [] := by
  rw [repr_data_eq]
  simp only [Nat.toDigitsCore]
  by_cases h0 : n / 10 = 0
  · simp [h0]
  · simp only [h0, if_false]
    rw [toDigitsCore_append]
    simp

end BatchRename

namespace BatchRename

theorem map_id_of {α : Type} (f : α → α) :
    ∀ l : List α, (∀ c ∈ l, f c = c) → l.map f = l := by
  intro l h
  exact (List.map_congr_left h).trans (List.map_id l)

theorem str_data_inj {s t : String} (h : s.data = t.data) : s = t := by
  cases s; cases t; exact congrArg String.mk h

theorem lowerStr_data (s : String) : (lowerStr s).data = s.data.map Char.toLower := rfl

theorem lowerStr_length (s : String) : (lowerStr s).data.length = s.data.length := by
  rw [lowerStr_data, List.length_map]

theorem splitLastDot_eq :
    ∀ (l : List Char) (pre suf : List Char), splitLastDot l = some (pre, suf) →
      l = pre ++ '.' :: suf := by
  intro l
  induction l with
  | nil => intro pre suf h; simp [splitLastDot] at h
  | cons c cs ih =>
    intro pre suf h
    simp only [splitLastDot] at h
    cases h' : splitLastDot cs with
    | some p =>
      rw [h'] at h
      obtain ⟨p1, p2⟩ := p
      simp at h
      obtain ⟨h1, h2⟩ := h
      subst h1; subst h2
      rw [ih p1 p2 h']
      simp
    | none =>
      rw [h'] at h
      by_cases hc : c == '.'
      · simp only [hc, if_true] at h
        simp at h
        obtain ⟨h1, h2⟩ := h
        subst h1; subst h2
        have hc' : c = '.' := by simpa using hc
        rw [hc']
        simp
      · simp [hc] at h

theorem candidate_data_some (base : String) (k : Nat) (hk : k ≠ 0)
    (pre suf : List Char) (hs : splitLastDot base.data = some (pre, suf)) :
    (candidateName base k).data = pre ++ '_' :: (Nat.repr k).data ++ '.' :: suf := by
  simp [candidateName, hk, hs]

theorem candidate_data_none (base : String) (k : Nat) (hk : k ≠ 0)
    (hs : splitLastDot base.data = none) :
    (candidateName base k).data = base.data ++ '_' :: (Nat.repr k).data := by
  simp [candidateName, hk, hs]

theorem candidate_zero (base : String) : candidateName base 0 = base := by
  simp [candidateName]

theorem candidate_length (base : String) (k : Nat) (hk : k ≠ 0) :
    (candidateName base k).data.length
      = base.data.length + 1 + (Nat.repr k).data.length := by
  cases hs : splitLastDot base.data with
  | some p =>
    obtain ⟨pre, suf⟩ := p
    rw [candidate_data_some base k hk pre suf hs]
    have hb := splitLastDot_eq base.data pre suf hs
    rw [hb]
    simp
    omega
  | none =>
    rw [candidate_data_none base k hk hs]
    simp
    omega

theorem lower_candidate_data_some (base : String) (k : Nat) (hk : k ≠ 0)
    (pre suf : List Char) (hs : splitLastDot base.data = some (pre, suf)) :
    (lowerStr (candidateName base k)).data
      = pre.map Char.toLower ++ '_' :: (Nat.repr k).data ++ '.' :: suf.map Char.toLower := by
  rw [lowerStr_data, candidate_data_some base k hk pre suf hs]
  simp only [List.map_append, List.map_cons]
  rw [map_id_of Char.toLower (Nat.repr k).data (repr_char_toLower k)]
  have h1 : Char.toLower '_' = '_' := by decide
  have h2 : Char.toLower '.' = '.' := by decide
  rw [h1, h2]

theorem lower_candidate_data_none (base : String) (k : Nat) (hk : k ≠ 0)
    (hs : splitLastDot base.data = none) :
    (lowerStr (candidateName base k)).data
      = base.data.map Char.toLower ++ '_' :: (Nat.repr k).data := by
  rw [lowerStr_data, candidate_data_none base k hk hs]
  simp only [List.map_append, List.map_cons]
  rw [map_id_of Char.toLower (Nat.repr k).data (repr_char_toLower k)]
  have h1 : Char.toLower '_' = '_' := by decide
  rw [h1]

theorem candidate_lower_inj (base : String) :
    Function.Injective (fun k => lowerStr (candidateName base k)) := by
  intro j k h
  simp only at h
  have hlen : (lowerStr (candidateName base j)).data.length
      = (lowerStr (candidateName base k)).data.length := by rw [h]
  rw [lowerStr_length, lowerStr_length] at hlen
  by_cases hj : j = 0
  · by_cases hk : k = 0
    · rw [hj, hk]
    · exfalso
      rw [hj, candidate_zero, candidate_length base k hk] at hlen
      have hne := repr_data_ne_nil k
      have : 0 < (Nat.repr k).data.length := List.length_pos.mpr hne
      omega
  · by_cases hk : k = 0
    · exfalso
      rw [hk, candidate_zero, candidate_length base j hj] at hlen
      have hne := repr_data_ne_nil j
      have : 0 < (Nat.repr j).data.length := List.length_pos.mpr hne
      omega
    · have hd : (lowerStr (candidateName base j)).data
          = (lowerStr (candidateName base k)).data := by rw [h]
      cases hs : splitLastDot base.data with
      | some p =>
        obtain ⟨pre, suf⟩ := p
        rw [lower_candidate_data_some base j hj pre suf hs,
          lower_candidate_data_some base k hk pre suf hs] at hd
        have h1 := List.append_cancel_right hd
        have h2 := List.append_cancel_left h1
        have h3 : (Nat.repr j).data = (Nat.repr k).data := by simpa using h2
        exact natRepr_injective (str_data_inj h3)
      | none =>
        rw [lower_candidate_data_none base j hj hs,
          lower_candidate_data_none base k hk hs] at hd
        have h1 := List.append_cancel_left hd
        have h2 : (Nat.repr j).data = (Nat.repr k).data := by
          simpa using h1
        exact natRepr_injective (str_data_inj h2)

end BatchRename

namespace BatchRename

theorem exists_fresh_candidate (base : String) (used : List String) :
    ∃ j, j ≤ used.length ∧ used.contains (lowerStr (candidateName base j)) = false := by
  by_contra hcon
  push_neg at hcon
  have hall : ∀ j, j ≤ used.length →
      lowerStr (candidateName base j) ∈ used := by
    intro j hj
    have := hcon j hj
    have ht : used.contains (lowerStr (candidateName base j)) = true := by
      cases hb : used.contains (lowerStr (candidateName base j)) with
      | false => exact absurd hb this
      | true => rfl
    exact List.elem_iff.mp ht
  set n := used.length with hn
  set cands := (List.range (n + 1)).map (fun j => lowerStr (candidateName base j)) with hc
  have hnodup : cands.Nodup :=
    (List.nodup_range (n + 1)).map (candidate_lower_inj base)
  have hsub : ∀ x ∈ cands, x ∈ used := by
    intro x hx
    rw [hc] at hx
    obtain ⟨j, hj, rfl⟩ := List.mem_map.mp hx
    exact hall j (by simpa using Nat.lt_succ_iff.mp (List.mem_range.mp hj))
  have hlen : cands.length = n + 1 := by
    rw [hc, List.length_map, List.length_range]
  have hcard : cands.toFinset.card = n + 1 := by
    rw [List.toFinset_card_of_nodup hnodup, hlen]
  have hsubf : cands.toFinset ⊆ used.toFinset := by
    intro x hx
    exact List.mem_toFinset.mpr (hsub x (List.mem_toFinset.mp hx))
  have h1 : n + 1 ≤ used.toFinset.card := by
    rw [← hcard]; exact Finset.card_le_card hsubf
  have h2 : used.toFinset.card ≤ used.length := List.toFinset_card_le used
  omega

theorem resolveFrom_succ (base : String) (used : List String) (counter f : Nat) :
    resolveFrom base used counter (f + 1)
      = if used.contains (lowerStr (candidateName base counter))
        then resolveFrom base used (counter + 1) f
        else candidateName base counter := rfl

theorem resolveFrom_spec (base : String) (used : List String) :
    ∀ (fuel counter : Nat),
      (∃ j, j < fuel ∧ used.contains (lowerStr (candidateName base (counter + j))) = false) →
      ∃ k, resolveFrom base used counter fuel = candidateName base k
        ∧ counter ≤ k
        ∧ used.contains (lowerStr (candidateName base k)) = false
        ∧ (∀ i, counter ≤ i → i < k → used.contains (lowerStr (candidateName base i)) = true) := by
  intro fuel
  induction fuel with
  | zero =>
    intro counter h
    obtain ⟨j, hj, _⟩ := h
    omega
  | succ f ih =>
    intro counter h
    by_cases hc : used.contains (lowerStr (candidateName base counter)) = true
    · have hstep : resolveFrom base used counter (f + 1)
          = resolveFrom base used (counter + 1) f := by
        rw [resolveFrom_succ, hc]
        exact if_pos rfl
      obtain ⟨j, hj, hjf⟩ := h
      have hj0 : j ≠ 0 := by
        intro h0
        rw [h0] at hjf
        simp only [Nat.add_zero] at hjf
        exact absurd (hc.symm.trans hjf) (by decide)
      obtain ⟨k, hk1, hk2, hk3, hk4⟩ := ih (counter + 1)
        ⟨j - 1, by omega, by
          have : counter + 1 + (j - 1) = counter + j := by omega
          rw [this]; exact hjf⟩
      refine ⟨k, hstep.trans hk1, by omega, hk3, ?_⟩
      intro i hi1 hi2
      by_cases hie : i = counter
      · rw [hie]; exact hc
      · exact hk4 i (by omega) hi2
    · have hcf : used.contains (lowerStr (candidateName base counter)) = false := by
        cases hb : used.contains (lowerStr (candidateName base counter)) with
        | false => rfl
        | true => exact absurd hb hc
      refine ⟨counter, ?_, Nat.le_refl _, hcf, ?_⟩
      · rw [resolveFrom_succ, hcf]
        exact if_neg (by simp)
      · intro i hi1 hi2; omega

theorem resolveUnique_spec (base : String) (used : List String) :
    ∃ k, resolveUnique base used = candidateName base k
      ∧ used.contains (lowerStr (candidateName base k)) = false
      ∧ (∀ i, i < k → used.contains (lowerStr (candidateName base i)) = true) := by
  obtain ⟨j, hj1, hj2⟩ := exists_fresh_candidate base used
  obtain ⟨k, hk1, _, hk3, hk4⟩ := resolveFrom_spec base used (used.length + 1) 0
    ⟨j, by omega, by simpa using hj2⟩
  exact ⟨k, hk1, hk3, fun i hi => hk4 i (Nat.zero_le i) hi⟩

theorem resolveUnique_not_mem (base : String) (used : List String) :
    used.contains (lowerStr (resolveUnique base used)) = false := by
  obtain ⟨k, hk1, hk2, _⟩ := resolveUnique_spec base used
  rw [hk1]
  exact hk2

end BatchRename

namespace BatchRename

theorem mem_collapseUnderscores :
    ∀ (l : List Char) (a : Char), a ∈ collapseUnderscores l → a ∈ l := by
  intro l
  induction l with
  | nil => intro a h; simpa [collapseUnderscores] using h
  | cons c cs ih =>
    intro a h
    cases cs with
    | nil => simpa [collapseUnderscores] using h
    | cons d t =>
      simp only [collapseUnderscores] at h
      by_cases hcd : c == '_' && d == '_'
      · rw [if_pos hcd] at h
        exact List.mem_cons_of_mem c (ih a h)
      · rw [if_neg hcd] at h
        rcases List.mem_cons.mp h with h' | h'
        · exact h' ▸ List.mem_cons_self a (d :: t)
        · exact List.mem_cons_of_mem c (ih a h')

theorem collapse_head :
    ∀ l : List Char, (collapseUnderscores l).head? = l.head? := by
  intro l
  induction l with
  | nil => rfl
  | cons c cs ih =>
    cases cs with
    | nil => rfl
    | cons d t =>
      simp only [collapseUnderscores]
      by_cases hcd : c == '_' && d == '_'
      · rw [if_pos hcd, ih]
        have hc : c = '_' := by
          have := (Bool.and_eq_true _ _).mp hcd
          simpa using this.1
        have hd : d = '_' := by
          have := (Bool.and_eq_true _ _).mp hcd
          simpa using this.2
        rw [hc, hd]
        rfl
      · rw [if_neg hcd]
        rfl

theorem collapse_noAdj : ∀ l : List Char, noAdj (collapseUnderscores l) := by
  intro l
  induction l with
  | nil => simp [collapseUnderscores, noAdj]
  | cons c cs ih =>
    cases cs with
    | nil => simp [collapseUnderscores, noAdj]
    | cons d t =>
      simp only [collapseUnderscores]
      by_cases hcd : c == '_' && d == '_'
      · rw [if_pos hcd]; exact ih
      · rw [if_neg hcd]
        unfold noAdj
        rw [List.chain'_cons']
        constructor
        · intro y hy
          rw [collapse_head (d :: t)] at hy
          simp at hy
          intro hcon
          apply hcd
          rw [hcon.1, hy, hcon.2]
          simp
        · exact ih

theorem collapse_eq_self : ∀ l : List Char, noAdj l → collapseUnderscores l = l := by
  intro l
  induction l with
  | nil => intro _; rfl
  | cons c cs ih =>
    intro h
    cases cs with
    | nil => rfl
    | cons d t =>
      unfold noAdj at h
      rw [List.chain'_cons] at h
      simp only [collapseUnderscores]
      have hcd : ¬(c == '_' && d == '_') = true := by
        intro hb
        have := (Bool.and_eq_true _ _).mp hb
        exact h.1 ⟨by simpa using this.1, by simpa using this.2⟩
      rw [if_neg hcd, ih h.2]

theorem mem_dropLeadUnd (l : List Char) (a : Char) (h : a ∈ dropLeadUnd l) : a ∈ l := by
  cases l with
  | nil => simpa [dropLeadUnd] using h
  | cons c t =>
    simp only [dropLeadUnd] at h
    by_cases hc : c == '_'
    · rw [if_pos hc] at h; exact List.mem_cons_of_mem c h
    · rw [if_neg hc] at h; exact h

theorem mem_dropTrailUnd : ∀ (l : List Char) (a : Char), a ∈ dropTrailUnd l → a ∈ l := by
  intro l
  induction l with
  | nil => intro a h; simpa [dropTrailUnd] using h
  | cons c cs ih =>
    intro a h
    cases cs with
    | nil =>
      simp only [dropTrailUnd] at h
      by_cases hc : c == '_'
      · rw [if_pos hc] at h; simp at h
      · rw [if_neg hc] at h; exact h
    | cons d t =>
      simp only [dropTrailUnd] at h
      rcases List.mem_cons.mp h with h' | h'
      · exact h' ▸ List.mem_cons_self a (d :: t)
      · exact List.mem_cons_of_mem c (ih a h')

theorem noAdj_dropLeadUnd (l : List Char) (h : noAdj l) : noAdj (dropLeadUnd l) := by
  cases l with
  | nil => exact h
  | cons c t =>
    simp only [dropLeadUnd]
    by_cases hc : c == '_'
    · rw [if_pos hc]
      unfold noAdj at h ⊢
      rw [List.chain'_cons'] at h
      exact h.2
    · rw [if_neg hc]; exact h

theorem noAdj_dropTrailUnd : ∀ l : List Char, noAdj l → noAdj (dropTrailUnd l) := by
  intro l
  induction l with
  | nil => intro h; exact h
  | cons c cs ih =>
    intro h
    cases cs with
    | nil =>
      simp only [dropTrailUnd]
      by_cases hc : c == '_'
      · rw [if_pos hc]; simp [noAdj]
      · rw [if_neg hc]; exact h
    | cons d t =>
      simp only [dropTrailUnd]
      unfold noAdj at h ⊢
      rw [List.chain'_cons'] at h
      rw [List.chain'_cons']
      constructor
      · intro y hy
        have hmem : y ∈ dropTrailUnd (d :: t) := by
          cases hdt : dropTrailUnd (d :: t) with
          | nil => rw [hdt] at hy; simp at hy
          | cons z zs =>
            rw [hdt] at hy
            simp at hy
            rw [← hy]
            exact List.mem_cons_self z zs
        have hyhead : (dropTrailUnd (d :: t)).head? = some y := hy
        have : (d :: t).head? = some y ∨ dropTrailUnd (d :: t) = [] := by
          cases t with
          | nil =>
            simp only [dropTrailUnd] at hyhead ⊢
            by_cases hd : d == '_'
            · right; rw [if_pos hd]
            · left
              rw [if_neg hd] at hyhead
              simpa using hyhead
          | cons e u =>
            left
            simp only [dropTrailUnd] at hyhead
            simpa using hyhead
        rcases this with h' | h'
        · simp at h'
          exact h.1 y (by simp [h'])
        · rw [h'] at hyhead; simp at hyhead
      · exact ih h.2

end BatchRename

namespace BatchRename

theorem dropLeadUnd_head (l : List Char) (h : noAdj l) :
    (dropLeadUnd l).head? ≠ some '_' := by
  cases l with
  | nil => simp [dropLeadUnd]
  | cons c t =>
    simp only [dropLeadUnd]
    by_cases hc : c == '_'
    · rw [if_pos hc]
      cases t with
      | nil => simp
      | cons d u =>
        unfold noAdj at h
        rw [List.chain'_cons] at h
        have hcu : c = '_' := by simpa using hc
        simp only [List.head?_cons]
        intro hcon
        simp at hcon
        exact h.1 ⟨hcu, hcon⟩
    · rw [if_neg hc]
      simp only [List.head?_cons]
      intro hcon
      simp at hcon
      rw [hcon] at hc
      simp at hc

theorem dropTrailUnd_eq_nil (l : List Char) (h : dropTrailUnd l = []) :
    l = [] ∨ l = ['_'] := by
  cases l with
  | nil => left; rfl
  | cons c t =>
    cases t with
    | nil =>
      simp only [dropTrailUnd] at h
      by_cases hc : c == '_'
      · right
        have : c = '_' := by simpa using hc
        rw [this]
      · rw [if_neg hc] at h; simp at h
    | cons d u => simp only [dropTrailUnd] at h; simp at h

theorem dropTrailUnd_getLast : ∀ l : List Char, noAdj l →
    (dropTrailUnd l).getLast? ≠ some '_' := by
  intro l
  induction l with
  | nil => intro _; simp [dropTrailUnd]
  | cons c cs ih =>
    intro h
    cases cs with
    | nil =>
      simp only [dropTrailUnd]
      by_cases hc : c == '_'
      · rw [if_pos hc]; simp
      · rw [if_neg hc]
        simp only [List.getLast?_singleton]
        intro hcon
        simp at hcon
        rw [hcon] at hc
        simp at hc
    | cons d t =>
      simp only [dropTrailUnd]
      unfold noAdj at h
      rw [List.chain'_cons] at h
      cases hdt : dropTrailUnd (d :: t) with
      | nil =>
        rcases dropTrailUnd_eq_nil (d :: t) hdt with h' | h'
        · simp at h'
        · have hd : d = '_' := by
            have := congrArg List.head? h'
            simpa using this
          simp only [List.getLast?_singleton]
          intro hcon
          simp at hcon
          exact h.1 ⟨hcon, hd⟩
      | cons z zs =>
        rw [List.getLast?_cons_cons, ← hdt]
        exact ih h.2

end BatchRename

namespace BatchRename

theorem dropLeadUnd_eq_self (l : List Char) (h : l.head? ≠ some '_') :
    dropLeadUnd l = l := by
  cases l with
  | nil => rfl
  | cons c t =>
    simp only [dropLeadUnd]
    have hc : ¬(c == '_') = true := by
      intro hb
      exact h (by simp [show c = '_' by simpa using hb])
    rw [if_neg hc]

theorem dropTrailUnd_eq_self : ∀ l : List Char, l.getLast? ≠ some '_' →
    dropTrailUnd l = l := by
  intro l
  induction l with
  | nil => intro _; rfl
  | cons c cs ih =>
    intro h
    cases cs with
    | nil =>
      simp only [dropTrailUnd]
      have hc : ¬(c == '_') = true := by
        intro hb
        exact h (by simp [List.getLast?_singleton, show c = '_' by simpa using hb])
      rw [if_neg hc]
    | cons d t =>
      simp only [dropTrailUnd]
      rw [List.getLast?_cons_cons] at h
      rw [ih h]

theorem dropTrailUnd_head (l : List Char) :
    (dropTrailUnd l).head? = l.head? ∨ dropTrailUnd l = [] := by
  cases l with
  | nil => left; rfl
  | cons c t =>
    cases t with
    | nil =>
      simp only [dropTrailUnd]
      by_cases hc : c == '_'
      · right; rw [if_pos hc]
      · left; rw [if_neg hc]
    | cons d u => left; simp [dropTrailUnd]

theorem replace_chars (b : Bool) (l : List Char) :
    ∀ a ∈ replaceDisallowed b l, isAllowedChar b a = true ∨ a = '_' := by
  intro a ha
  obtain ⟨c, _, rfl⟩ := List.mem_map.mp ha
  by_cases hc : isAllowedChar b c = true
  · left; rw [if_pos hc]; exact hc
  · right; rw [if_neg hc]

theorem replace_eq_self (l : List Char)
    (h : ∀ a ∈ l, isAllowedChar false a = true ∨ a = '_') :
    replaceDisallowed false l = l := by
  apply map_id_of
  intro c hc
  rcases h c hc with h' | h'
  · rw [if_pos h']
  · rw [h']
    have : isAllowedChar false '_' = false := by decide
    rw [this]
    simp

/-- The unfolded form of sanitizePart for a non-empty argument with allowDots
    false. -/
theorem sanitizePart_false_eq (s : String) (h : ¬ s = "") :
    sanitizePart s false
      = if dropTrailUnd (dropLeadUnd (collapseUnderscores (replaceDisallowed false s.data))) = []
        then "Unknown"
        else ⟨dropTrailUnd (dropLeadUnd (collapseUnderscores (replaceDisallowed false s.data)))⟩ := by
  simp only [sanitizePart, if_neg h]
  norm_num

theorem sanitize_false_output (s : String) (h : ¬ s = "")
    (L : List Char)
    (hL : L = dropTrailUnd (dropLeadUnd (collapseUnderscores (replaceDisallowed false s.data))))
    (hne : L ≠ []) :
    (∀ a ∈ L, isAllowedChar false a = true ∨ a = '_')
      ∧ noAdj L ∧ L.head? ≠ some '_' ∧ L.getLast? ≠ some '_' := by
  subst hL
  refine ⟨?_, ?_, ?_, ?_⟩
  · intro a ha
    exact replace_chars false s.data a
      (mem_collapseUnderscores _ a (mem_dropLeadUnd _ a (mem_dropTrailUnd _ a ha)))
  · exact noAdj_dropTrailUnd _ (noAdj_dropLeadUnd _ (collapse_noAdj _))
  · rcases dropTrailUnd_head (dropLeadUnd (collapseUnderscores (replaceDisallowed false s.data)))
      with h' | h'
    · rw [h']
      exact dropLeadUnd_head _ (collapse_noAdj _)
    · exact absurd h' hne
  · exact dropTrailUnd_getLast _ (noAdj_dropLeadUnd _ (collapse_noAdj _))

theorem sanitize_false_idem (s : String) :
    sanitizePart (sanitizePart s false) false = sanitizePart s false := by
  by_cases h0 : s = ""
  · rw [h0]
    decide
  · rw [sanitizePart_false_eq s h0]
    set L := dropTrailUnd (dropLeadUnd (collapseUnderscores (replaceDisallowed false s.data)))
      with hL
    by_cases hLnil : L = []
    · rw [if_pos hLnil]
      decide
    · rw [if_neg hLnil]
      obtain ⟨hchars, hadj, hhead, hlast⟩ := sanitize_false_output s h0 L hL hLnil
      have hsne : ¬ (⟨L⟩ : String) = "" := by
        intro hcon
        apply hLnil
        have : (⟨L⟩ : String).data = ("" : String).data := by rw [hcon]
        simpa using this
      rw [sanitizePart_false_eq ⟨L⟩ hsne]
      have hdata : (⟨L⟩ : String).data = L := rfl
      rw [hdata]
      rw [replace_eq_self L hchars, collapse_eq_self L hadj, dropLeadUnd_eq_self L hhead,
        dropTrailUnd_eq_self L hlast]
      rw [if_neg hLnil]

end BatchRename

namespace BatchRename

theorem collapse_all_und : ∀ l : List Char, l ≠ [] → (∀ a ∈ l, a = '_') →
    collapseUnderscores l = ['_'] := by
  intro l
  induction l with
  | nil => intro h _; exact absurd rfl h
  | cons c cs ih =>
    intro _ hall
    cases cs with
    | nil =>
      simp only [collapseUnderscores]
      rw [hall c (List.mem_cons_self c [])]
    | cons d t =>
      simp only [collapseUnderscores]
      have hc : c = '_' := hall c (by simp)
      have hd : d = '_' := hall d (by simp)
      have hcd : (c == '_' && d == '_') = true := by rw [hc, hd]; simp
      rw [if_pos hcd]
      exact ih (by simp) (fun a ha => hall a (List.mem_cons_of_mem c ha))

theorem sanitize_all_disallowed (s : String) (b : Bool)
    (h : ∀ c ∈ s.data, isAllowedChar b c = false) :
    sanitizePart s b = "Unknown" := by
  by_cases h0 : s = ""
  · rw [h0]; cases b <;> rfl
  · simp only [sanitizePart, if_neg h0]
    have hall : ∀ a ∈ replaceDisallowed b s.data, a = '_' := by
      intro a ha
      obtain ⟨c, hc, rfl⟩ := List.mem_map.mp ha
      rw [if_neg (by rw [h c hc]; simp)]
    have hne : replaceDisallowed b s.data ≠ [] := by
      intro hcon
      apply h0
      have : s.data = [] := by
        have hmap : s.data.map (fun c => if isAllowedChar b c then c else '_') = [] := hcon
        exact List.map_eq_nil_iff.mp hmap
      exact str_data_inj this
    rw [collapse_all_und _ hne hall]
    have h1 : dropLeadUnd ['_'] = [] := rfl
    rw [h1]
    cases b <;> rfl

end BatchRename

namespace BatchRename

theorem contains_true_iff {α : Type} [BEq α] [LawfulBEq α] (l : List α) (x : α) :
    l.contains x = true ↔ x ∈ l := List.elem_iff

theorem contains_false_iff {α : Type} [BEq α] [LawfulBEq α] (l : List α) (x : α) :
    l.contains x = false ↔ x ∉ l := by
  rw [← contains_true_iff]
  cases h : l.contains x <;> simp

theorem status_beq_iff (a b : Status) : (a == b) = true ↔ a = b := by
  cases a <;> cases b <;> decide

theorem mergeOne_not_mem (ci : List String) (cd : List ChunkData)
    (rs : List BatchResult) (used : List String) (f : ProcessedFile)
    (h : ci.contains f.id = false) :
    mergeOne ci cd rs used f = (f, used) := by
  simp only [mergeOne]
  rw [h]
  simp

theorem mergeOne_no_result (ci : List String) (cd : List ChunkData)
    (rs : List BatchResult) (used : List String) (f : ProcessedFile)
    (h : ci.contains f.id = true)
    (h2 : rs.find? (fun r => r.id == f.id) = none) :
    mergeOne ci cd rs used f = ({ f with status := .error }, used) := by
  simp only [mergeOne]
  rw [h, h2]
  simp

theorem mergeOne_found (ci : List String) (cd : List ChunkData)
    (rs : List BatchResult) (used : List String) (f : ProcessedFile)
    (res : BatchResult) (h : ci.contains f.id = true)
    (h2 : rs.find? (fun r => r.id == f.id) = some res) :
    mergeOne ci cd rs used f
      = ({ f with
            status := .completed
            newName := some (resolveUnique (baseNameFor cd f.id res) used)
            metadata := some ⟨sanitizePart res.english false, sanitizePart res.chinese false,
              sanitizePart res.domain true⟩ },
          lowerStr (resolveUnique (baseNameFor cd f.id res) used) :: used) := by
  simp only [mergeOne]
  rw [h, h2]
  simp

theorem mergeFold_cons (ci : List String) (cd : List ChunkData)
    (rs : List BatchResult) (f : ProcessedFile) (fs : List ProcessedFile)
    (used : List String) :
    mergeFold ci cd rs (f :: fs) used
      = ((mergeOne ci cd rs used f).1
            :: (mergeFold ci cd rs fs (mergeOne ci cd rs used f).2).1,
          (mergeFold ci cd rs fs (mergeOne ci cd rs used f).2).2) := rfl

theorem mergeFold_get? (ci : List String) (cd : List ChunkData)
    (rs : List BatchResult) :
    ∀ (files : List ProcessedFile) (used : List String) (i : Nat) (f : ProcessedFile),
      files[i]? = some f →
      ((mergeFold ci cd rs files used).1)[i]?
        = some (mergeOne ci cd rs (mergeFold ci cd rs (files.take i) used).2 f).1 := by
  intro files
  induction files with
  | nil => intro used i f h; simp at h
  | cons g gs ih =>
    intro used i f h
    cases i with
    | zero =>
      simp at h
      rw [mergeFold_cons]
      simp [h]
      rfl
    | succ j =>
      simp at h
      rw [mergeFold_cons]
      simp only [List.getElem?_cons_succ]
      rw [ih (mergeOne ci cd rs used g).2 j f h]
      rfl

theorem completedClash_false_left (f g : ProcessedFile)
    (h : ¬ f.status = Status.completed) : completedClash f g = false := by
  unfold completedClash
  have : (f.status == Status.completed) = false := by
    cases hb : f.status == Status.completed
    · rfl
    · exact absurd ((status_beq_iff _ _).mp hb) h
  rw [this]
  simp

theorem completedClash_false_right (f g : ProcessedFile)
    (h : ¬ g.status = Status.completed) : completedClash f g = false := by
  unfold completedClash
  have : (g.status == Status.completed) = false := by
    cases hb : g.status == Status.completed
    · rfl
    · exact absurd ((status_beq_iff _ _).mp hb) h
  rw [this]
  simp

theorem completedClash_false_iff (f g : ProcessedFile) :
    completedClash f g = false
      ↔ (f.status = Status.completed → g.status = Status.completed →
          ∀ m n, f.newName = some m → g.newName = some n → ¬ lowerStr m = lowerStr n) := by
  constructor
  · intro h hf hg m n hm hn hcon
    unfold completedClash at h
    rw [hf, hg, hm, hn] at h
    simp at h
    exact h hcon
  · intro h
    by_cases hf : f.status = Status.completed
    · by_cases hg : g.status = Status.completed
      · unfold completedClash
        rw [hf, hg]
        cases hm : f.newName with
        | none => simp
        | some m =>
          cases hn : g.newName with
          | none => simp
          | some n =>
            simp only [beq_self_eq_true, Bool.true_and]
            cases hb : lowerStr m == lowerStr n
            · rfl
            · exact absurd (beq_iff_eq.mp hb) (h hf hg m n hm hn)
      · exact completedClash_false_right f g hg
    · exact completedClash_false_left f g hf

theorem clashFree_cons_iff (f : ProcessedFile) (fs : List ProcessedFile) :
    clashFree (f :: fs) = true
      ↔ (∀ x ∈ fs, completedClash f x = false) ∧ clashFree fs = true := by
  simp only [clashFree, Bool.and_eq_true, List.all_eq_true, Bool.not_eq_true']

end BatchRename

namespace BatchRename

theorem coversCompleted_tail {used : List String} {f : ProcessedFile}
    {fs : List ProcessedFile} (h : coversCompleted used (f :: fs)) :
    coversCompleted used fs :=
  fun g hg => h g (List.mem_cons_of_mem f hg)

theorem coversCompleted_mono {used used2 : List String} {fs : List ProcessedFile}
    (h : coversCompleted used fs)
    (hsub : ∀ x, used.contains x = true → used2.contains x = true) :
    coversCompleted used2 fs :=
  fun g hg hst n hn => hsub _ (h g hg hst n hn)

theorem contains_cons_of {α : Type} [BEq α] [LawfulBEq α] (a x : α) (l : List α)
    (h : l.contains x = true) : (a :: l).contains x = true := by
  rw [contains_true_iff] at h ⊢
  exact List.mem_cons_of_mem a h

/-- The heart of the dedup invariant: merging one oracle response preserves
    freedom from case-insensitive name clashes, provided the registry covers
    every name currently completed; the final registry covers the output, the
    registry only grows, and every output completed name either already
    belonged to a completed input record or is fresh for the input registry. -/
theorem mergeFold_preserves (ci : List String) (cd : List ChunkData)
    (rs : List BatchResult) :
    ∀ (files : List ProcessedFile) (used : List String),
      coversCompleted used files →
      clashFree files = true →
      clashFree (mergeFold ci cd rs files used).1 = true
      ∧ coversCompleted (mergeFold ci cd rs files used).2 (mergeFold ci cd rs files used).1
      ∧ (∀ x, used.contains x = true → (mergeFold ci cd rs files used).2.contains x = true)
      ∧ (∀ g ∈ (mergeFold ci cd rs files used).1, g.status = Status.completed →
          ∀ m, g.newName = some m →
            (∃ g0 ∈ files, g0.status = Status.completed ∧ g0.newName = some m)
            ∨ used.contains (lowerStr m) = false) := by
  intro files
  induction files with
  | nil =>
    intro used _ _
    refine ⟨rfl, ?_, fun x hx => hx, ?_⟩
    · intro g hg; simp [mergeFold] at hg
    · intro g hg; simp [mergeFold] at hg
  | cons f fs ih =>
    intro used hcov hcf
    obtain ⟨hclash, hcffs⟩ := (clashFree_cons_iff f fs).mp hcf
    rw [mergeFold_cons]
    by_cases hmem : ci.contains f.id = true
    · cases hfind : rs.find? (fun r => r.id == f.id) with
      | none =>
        rw [mergeOne_no_result ci cd rs used f hmem hfind]
        obtain ⟨ih1, ih2, ih3, ih4⟩ := ih used (coversCompleted_tail hcov) hcffs
        refine ⟨?_, ?_, ih3, ?_⟩
        · rw [clashFree_cons_iff]
          refine ⟨?_, ih1⟩
          intro x _
          exact completedClash_false_left _ x (by simp)
        · intro g hg hst n hn
          rcases List.mem_cons.mp hg with h' | h'
          · rw [h'] at hst; simp at hst
          · exact ih2 g h' hst n hn
        · intro g hg hst m hm
          rcases List.mem_cons.mp hg with h' | h'
          · rw [h'] at hst; simp at hst
          · rcases ih4 g h' hst m hm with ⟨g0, hg0, hg1, hg2⟩ | hfresh
            · exact Or.inl ⟨g0, List.mem_cons_of_mem f hg0, hg1, hg2⟩
            · exact Or.inr hfresh
      | some res =>
        rw [mergeOne_found ci cd rs used f res hmem hfind]
        set u := resolveUnique (baseNameFor cd f.id res) used with hu
        have hfresh : used.contains (lowerStr u) = false := resolveUnique_not_mem _ _
        have hcov' : coversCompleted (lowerStr u :: used) fs :=
          coversCompleted_mono (coversCompleted_tail hcov)
            (fun x hx => contains_cons_of _ x _ hx)
        obtain ⟨ih1, ih2, ih3, ih4⟩ := ih (lowerStr u :: used) hcov' hcffs
        refine ⟨?_, ?_, ?_, ?_⟩
        · rw [clashFree_cons_iff]
          refine ⟨?_, ih1⟩
          intro x hx
          rw [completedClash_false_iff]
          intro _ hxc m n hm hn
          have hmu : u = m := by simpa using hm
          rw [← hmu]
          rcases ih4 x hx hxc n hn with ⟨g0, hg0, hg1, hg2⟩ | hxfresh
          · have hcontain : used.contains (lowerStr n) = true :=
              hcov g0 (List.mem_cons_of_mem f hg0) hg1 n hg2
            intro hcon
            rw [hcon] at hfresh
            exact absurd (hcontain.symm.trans hfresh) (by decide)
          · have h1 : lowerStr n ∉ lowerStr u :: used := (contains_false_iff _ _).mp hxfresh
            intro hcon
            exact h1 (hcon ▸ List.mem_cons_self _ _)
        · intro g hg hst n hn
          rcases List.mem_cons.mp hg with h' | h'
          · have hn' : u = n := by
              rw [h'] at hn
              simpa using hn
            rw [← hn']
            apply ih3
            rw [contains_true_iff]
            exact List.mem_cons_self _ _
          · exact ih2 g h' hst n hn
        · intro x hx
          exact ih3 x (contains_cons_of _ x _ hx)
        · intro g hg hst m hm
          rcases List.mem_cons.mp hg with h' | h'
          · have hm' : u = m := by
              rw [h'] at hm
              simpa using hm
            rw [← hm']
            exact Or.inr hfresh
          · rcases ih4 g h' hst m hm with ⟨g0, hg0, hg1, hg2⟩ | hmfresh
            · exact Or.inl ⟨g0, List.mem_cons_of_mem f hg0, hg1, hg2⟩
            · right
              rw [contains_false_iff] at hmfresh ⊢
              intro hcon
              exact hmfresh (List.mem_cons_of_mem _ hcon)
    · have hmem' : ci.contains f.id = false := by
        cases hb : ci.contains f.id
        · rfl
        · exact absurd hb hmem
      rw [mergeOne_not_mem ci cd rs used f hmem']
      obtain ⟨ih1, ih2, ih3, ih4⟩ := ih used (coversCompleted_tail hcov) hcffs
      refine ⟨?_, ?_, ih3, ?_⟩
      · rw [clashFree_cons_iff]
        refine ⟨?_, ih1⟩
        intro x hx
        rw [completedClash_false_iff]
        intro hf hxc m n hm hn
        rcases ih4 x hx hxc n hn with ⟨g0, hg0, hg1, hg2⟩ | hxfresh
        · have := (completedClash_false_iff f g0).mp (hclash g0 hg0)
          exact this hf hg1 m n hm hg2
        · have hcontain : used.contains (lowerStr m) = true := hcov f (by simp) hf m hm
          intro hcon
          rw [hcon] at hcontain
          exact absurd (hcontain.symm.trans hxfresh) (by decide)
      · intro g hg hst n hn
        rcases List.mem_cons.mp hg with h' | h'
        · rw [h'] at hst hn
          apply ih3
          exact hcov f (by simp) hst n hn
        · exact ih2 g h' hst n hn
      · intro g hg hst m hm
        rcases List.mem_cons.mp hg with h' | h'
        · rw [h'] at hst hm
          left
          exact ⟨f, by simp, hst, hm⟩
        · rcases ih4 g h' hst m hm with ⟨g0, hg0, hg1, hg2⟩ | hfresh
          · exact Or.inl ⟨g0, List.mem_cons_of_mem f hg0, hg1, hg2⟩
          · exact Or.inr hfresh

end BatchRename

namespace BatchRename

theorem clashFree_map_safe (g : ProcessedFile → ProcessedFile)
    (hg : ∀ f, (g f).status = Status.completed → g f = f) :
    ∀ l : List ProcessedFile, clashFree l = true → clashFree (l.map g) = true := by
  intro l
  induction l with
  | nil => intro _; rfl
  | cons f fs ih =>
    intro h
    obtain ⟨hclash, hcf⟩ := (clashFree_cons_iff f fs).mp h
    rw [List.map_cons, clashFree_cons_iff]
    refine ⟨?_, ih hcf⟩
    intro y hy
    obtain ⟨x, hx, rfl⟩ := List.mem_map.mp hy
    by_cases hgf : (g f).status = Status.completed
    · by_cases hgx : (g x).status = Status.completed
      · rw [hg f hgf, hg x hgx]
        exact hclash x hx
      · exact completedClash_false_right _ _ hgx
    · exact completedClash_false_left _ _ hgf

theorem clashFree_filter (p : ProcessedFile → Bool) :
    ∀ l : List ProcessedFile, clashFree l = true → clashFree (l.filter p) = true := by
  intro l
  induction l with
  | nil => intro _; rfl
  | cons f fs ih =>
    intro h
    obtain ⟨hclash, hcf⟩ := (clashFree_cons_iff f fs).mp h
    rw [List.filter_cons]
    by_cases hp : p f = true
    · rw [if_pos hp, clashFree_cons_iff]
      refine ⟨?_, ih hcf⟩
      intro x hx
      exact hclash x (List.mem_of_mem_filter hx)
    · rw [if_neg hp]
      exact ih hcf

theorem clashFree_all_not_completed :
    ∀ l : List ProcessedFile, (∀ g ∈ l, ¬ g.status = Status.completed) →
      clashFree l = true := by
  intro l
  induction l with
  | nil => intro _; rfl
  | cons f fs ih =>
    intro h
    rw [clashFree_cons_iff]
    refine ⟨?_, ih (fun g hg => h g (List.mem_cons_of_mem f hg))⟩
    intro x _
    exact completedClash_false_left _ _ (h f (by simp))

theorem clashFree_append_pending (l l2 : List ProcessedFile)
    (h : clashFree l = true) (h2 : ∀ g ∈ l2, ¬ g.status = Status.completed) :
    clashFree (l ++ l2) = true := by
  induction l with
  | nil => simpa using clashFree_all_not_completed l2 h2
  | cons f fs ih =>
    obtain ⟨hclash, hcf⟩ := (clashFree_cons_iff f fs).mp h
    rw [List.cons_append, clashFree_cons_iff]
    refine ⟨?_, ih hcf⟩
    intro x hx
    rcases List.mem_append.mp hx with h' | h'
    · exact hclash x h'
    · exact completedClash_false_right _ _ (h2 x h')

/-- One covered step preserves the dedup invariant. -/
theorem stepSafe_clashFree {a b : SysState} (h : StepSafe a b)
    (ih : clashFree a.files = true) : clashFree b.files = true := by
  cases h with
  | upload newFiles hp =>
    exact clashFree_append_pending _ _ ih (by
      intro g hg
      obtain ⟨x, _, rfl⟩ := List.mem_map.mp hg
      simp [mkPendingFile])
  | deleteFile id => exact clashFree_filter _ _ ih
  | start => exact ih
  | stop =>
    refine clashFree_map_safe _ ?_ _ ih
    intro f hf
    by_cases hp : f.status == Status.processing
    · rw [if_pos hp] at hf; simp at hf
    · rw [if_neg hp]
  | restart => rfl
  | startCycle h1 h2 h3 =>
    refine clashFree_map_safe _ ?_ _ ih
    intro f hf
    by_cases hc : ((selectChunk CHUNK_SIZE a.files).map (fun f => f.id)).contains f.id
    · rw [if_pos hc] at hf; simp at hf
    · rw [if_neg hc] at hf ⊢
      by_cases hp : f.status == Status.processing
      · rw [if_pos hp] at hf; simp at hf
      · rw [if_neg hp]
  | heal h1 h2 h3 h4 =>
    refine clashFree_map_safe _ ?_ _ ih
    intro f hf
    by_cases hp : f.status == Status.processing
    · rw [if_pos hp] at hf; simp at hf
    · rw [if_neg hp]
  | finish h1 h2 h3 h4 => exact ih
  | mergeSuccess c results hc hcov =>
    exact (mergeFold_preserves c.chunkIds c.chunkData results a.files c.used hcov ih).1
  | mergeFailure c hc =>
    refine clashFree_map_safe _ ?_ _ ih
    intro f hf
    by_cases hcc : c.chunkIds.contains f.id
    · rw [if_pos hcc] at hf; simp at hf
    · rw [if_neg hcc]

end BatchRename

namespace BatchRename

/-- C1 (counterexample): the dedup invariant as stated fails on the code: a
    reachable run (start a cycle, stop, add a file, start again, then merge the
    two outstanding responses with the newer first) ends with two completed
    records sharing the case-insensitive name Y--Y--Y, because the late merge
    resolves against its stale captured registry. -/
theorem c1_dedup_counterexample :
    ∃ s : SysState, Reach s ∧ clashFree s.files = false := by
  refine ⟨_, Relation.ReflTransGen.tail
      (Relation.ReflTransGen.tail
        (Relation.ReflTransGen.tail
          (Relation.ReflTransGen.tail
            (Relation.ReflTransGen.tail
              (Relation.ReflTransGen.tail
                (Relation.ReflTransGen.tail
                  (Relation.ReflTransGen.tail
                    (Relation.ReflTransGen.tail Relation.ReflTransGen.refl
                      (Step.upload initState [("r1", "a")] rfl))
                    (Step.start _))
                  (Step.startCycle _ rfl rfl (by decide)))
                (Step.stop _))
              (Step.upload _ [("r2", "b")] rfl))
            (Step.start _))
          (Step.startCycle _ rfl rfl (by decide)))
        (Step.mergeSuccess _ ⟨["r1", "r2"], [⟨"r1", "a", "", "a"⟩, ⟨"r2", "b", "", "b"⟩], []⟩
          [⟨"r1", "a", "X", "X", "X"⟩, ⟨"r2", "b", "Y", "Y", "Y"⟩] (by decide)))
      (Step.mergeSuccess _ ⟨["r1"], [⟨"r1", "a", "", "a"⟩], []⟩
        [⟨"r1", "a", "Y", "Y", "Y"⟩] (by decide)), ?_⟩
  decide

end BatchRename

namespace BatchRename

/-- C1 (amended): no two Completed records ever hold the same newName under
    case-insensitive comparison, at every point of every run in which each
    merge's captured used-names registry still contains the lowercased newName
    of every record Completed at merge time; this condition holds in every run
    without overlapping outstanding oracle calls (each merge reserves each
    assigned name before assigning the next within the same merge), but can be
    violated by a response merged late after a stop and restart. -/
theorem c1_dedup_invariant (s : SysState) (h : ReachSafe s) :
    clashFree s.files = true := by
  unfold ReachSafe at h
  induction h with
  | refl => rfl
  | tail _ hstep ih => exact stepSafe_clashFree hstep ih

theorem c1_dedup_invariant_witness :
    ReachSafe initState ∧ clashFree initState.files = true :=
  ⟨Relation.ReflTransGen.refl, c1_dedup_invariant initState Relation.ReflTransGen.refl⟩

/-- C2 (counterexample): the merge step does update a chunk record that is no
    longer in status Processing: merging a result for a record reverted to
    Pending by stop overwrites it to Completed. -/
theorem c2_cancellation_counterexample :
    (⟨"r1", "a", none, Status.pending, none⟩ : ProcessedFile).status ≠ Status.processing
      ∧ (mergeFold ["r1"] [⟨"r1", "a", "", "a"⟩] [⟨"r1", "a", "X", "X", "X"⟩]
            [⟨"r1", "a", none, Status.pending, none⟩] []).1
          = [⟨"r1", "a", some "X--X--X", Status.completed, some ⟨"X", "X", "X"⟩⟩]
      ∧ (mergeFold ["r1"] [⟨"r1", "a", "", "a"⟩] [⟨"r1", "a", "X", "X", "X"⟩]
            [⟨"r1", "a", none, Status.pending, none⟩] []).1
          ≠ [⟨"r1", "a", none, Status.pending, none⟩] := by
  refine ⟨by decide, by decide, by decide⟩

/-- C2 (amended): stop reverts every Processing record to Pending (and leaves
    all other records unchanged); a late-arriving successful merge, however,
    updates every chunk record matched by id regardless of its current status
    (it never checks for Processing), while records outside the chunk are left
    unchanged. -/
theorem c2_cancellation :
    (∀ (files : List ProcessedFile) (i : Nat) (f : ProcessedFile),
        files[i]? = some f →
        (revertProcessing files)[i]?
          = some (if f.status == Status.processing then { f with status := Status.pending } else f))
    ∧ (∀ (ci : List String) (cd : List ChunkData) (rs : List BatchResult)
        (used : List String) (files : List ProcessedFile) (i : Nat) (f : ProcessedFile),
        files[i]? = some f → ci.contains f.id = false →
        ((mergeFold ci cd rs files used).1)[i]? = some f)
    ∧ (∀ (ci : List String) (cd : List ChunkData) (rs : List BatchResult)
        (used : List String) (f : ProcessedFile) (res : BatchResult),
        ci.contains f.id = true → rs.find? (fun r => r.id == f.id) = some res →
        ((mergeOne ci cd rs used f).1).status = Status.completed) := by
  refine ⟨?_, ?_, ?_⟩
  · intro files i f h
    unfold revertProcessing
    rw [List.getElem?_map, h]
    rfl
  · intro ci cd rs used files i f h hmem
    rw [mergeFold_get? ci cd rs files used i f h, mergeOne_not_mem ci cd rs _ f hmem]
  · intro ci cd rs used f res hmem hfind
    rw [mergeOne_found ci cd rs used f res hmem hfind]

theorem c2_cancellation_witness :
    (([⟨"r2", "b", none, Status.pending, none⟩] : List ProcessedFile)[0]?
        = some ⟨"r2", "b", none, Status.pending, none⟩)
      ∧ (["r1"] : List String).contains "r2" = false
      ∧ ((mergeFold ["r1"] [] [] [⟨"r2", "b", none, Status.pending, none⟩] []).1)[0]?
        = some ⟨"r2", "b", none, Status.pending, none⟩ :=
  ⟨by decide, by decide,
    c2_cancellation.2.1 ["r1"] [] [] [] [⟨"r2", "b", none, Status.pending, none⟩] 0
      ⟨"r2", "b", none, Status.pending, none⟩ (by decide) (by decide)⟩

/-- C3 (counterexample): the sanitizer is not idempotent when allowDots is
    true: sanitize of the string a-underscore-dot gives a-underscore, whose
    sanitization gives a. -/
theorem c3_sanitizer_counterexample :
    sanitizePart "a_." true = "a_"
      ∧ sanitizePart (sanitizePart "a_." true) true = "a"
      ∧ sanitizePart (sanitizePart "a_." true) true ≠ sanitizePart "a_." true := by
  refine ⟨by decide, by decide, by decide⟩

/-- C3 (amended): the sanitizer is idempotent for allowDots false; the empty
    string yields Unknown for both values of allowDots; and an input all of
    whose characters are outside the allowed class yields Unknown. For
    allowDots true, idempotence fails (see the counterexample). -/
theorem c3_sanitizer_idempotence :
    (∀ s : String, sanitizePart (sanitizePart s false) false = sanitizePart s false)
    ∧ (∀ b : Bool, sanitizePart "" b = "Unknown")
    ∧ (∀ (s : String) (b : Bool), (∀ c ∈ s.data, isAllowedChar b c = false) →
        sanitizePart s b = "Unknown") :=
  ⟨sanitize_false_idem, fun b => by cases b <;> rfl, sanitize_all_disallowed⟩

theorem c3_sanitizer_idempotence_witness :
    (∀ c ∈ ("##" : String).data, isAllowedChar true c = false)
      ∧ sanitizePart "##" true = "Unknown" :=
  ⟨by decide, c3_sanitizer_idempotence.2.2 "##" true (by decide)⟩

/-- C4 (counterexample): with an empty extension component and a candidate
    containing a dot (possible since the sanitized domain part may contain
    dots), the suffix is inserted before the candidate's last dot rather than
    appended at the end as the claim's base-underscore-counter reading demands. -/
theorem c4_collision_counterexample :
    resolveUnique "a--b--x.y" ["a--b--x.y"] = "a--b--x_1.y"
      ∧ resolveUnique "a--b--x.y" ["a--b--x.y"] ≠ "a--b--x.y_1" := by
  refine ⟨by decide, by decide⟩

/-- C4 (amended): collision resolution returns the first candidate of the
    sequence base, base_1, base_2, ... that is not case-insensitively in the
    registry, where the counter suffix is inserted immediately before the last
    dot of the candidate (the extension's dot whenever the extension is
    non-empty) and appended when the candidate has no dot; in particular both
    concrete examples of the claim hold. -/
theorem c4_collision_resolution :
    (∀ (base : String) (used : List String),
      ∃ k, resolveUnique base used = candidateName base k
        ∧ used.contains (lowerStr (candidateName base k)) = false
        ∧ (∀ j, j < k → used.contains (lowerStr (candidateName base j)) = true))
    ∧ resolveUnique "a--b--c.png" ["a--b--c.png"] = "a--b--c_1.png"
    ∧ resolveUnique "a--b--c.png" ["a--b--c.png", "a--b--c_1.png"] = "a--b--c_2.png" :=
  ⟨resolveUnique_spec, by decide, by decide⟩

theorem c4_collision_resolution_witness :
    ∃ k, resolveUnique "icon" [] = candidateName "icon" k
      ∧ ([] : List String).contains (lowerStr (candidateName "icon" k)) = false
      ∧ (∀ j, j < k → ([] : List String).contains (lowerStr (candidateName "icon" j)) = true) :=
  c4_collision_resolution.1 "icon" []

end BatchRename

namespace BatchRename

/-- C5: the oracle client retries a transiently failing call at most 3 times,
    sleeping 3000, 6000 and 9000 milliseconds before the first, second and
    third retry; once the budget is exhausted the transient failure is
    re-raised, and a non-transient error is raised without any retry. -/
theorem c5_retry_schedule (oracle : Nat → CallOutcome) :
    (analyzeFilenamesBatch oracle).2.length ≤ 3
    ∧ (analyzeFilenamesBatch oracle).2
        = [3000, 6000, 9000].take (analyzeFilenamesBatch oracle).2.length
    ∧ (oracle 0 = CallOutcome.failure →
        analyzeFilenamesBatch oracle = (Except.error (), []))
    ∧ (oracle 0 = CallOutcome.transient → oracle 1 = CallOutcome.transient →
        oracle 2 = CallOutcome.transient → oracle 3 = CallOutcome.transient →
        analyzeFilenamesBatch oracle = (Except.error (), [3000, 6000, 9000])) := by
  rcases h0 : oracle 0 <;> rcases h1 : oracle 1 <;> rcases h2 : oracle 2 <;>
    rcases h3 : oracle 3 <;>
    simp [analyzeFilenamesBatch, attemptLoop, h0, h1, h2, h3]

theorem c5_retry_schedule_witness :
    ((fun _ => CallOutcome.failure) : Nat → CallOutcome) 0 = CallOutcome.failure
      ∧ analyzeFilenamesBatch (fun _ => CallOutcome.failure) = (Except.error (), []) :=
  ⟨rfl, (c5_retry_schedule (fun _ => CallOutcome.failure)).2.2.1 rfl⟩

/-- C6: with no Pending records, the cycle check heals every Processing record
    (zombie) to Error without calling the oracle; with neither Pending nor
    Processing records it instead ends the run. -/
theorem c6_zombie_healing (files : List ProcessedFile) :
    (pendingFilter files = [] →
      files.any (fun f => f.status == Status.processing) = true →
      cycleCheck files = CycleDecision.heal (healZombies files)
        ∧ ∀ chunk, ¬ cycleCheck files = CycleDecision.callOracle chunk)
    ∧ (pendingFilter files = [] →
        files.any (fun f => f.status == Status.processing) = false →
        cycleCheck files = CycleDecision.finish)
    ∧ (∀ (i : Nat) (f : ProcessedFile), files[i]? = some f →
        (healZombies files)[i]?
          = some (if f.status == Status.processing then { f with status := Status.error } else f)) := by
  refine ⟨?_, ?_, ?_⟩
  · intro hp hz
    have he : (pendingFilter files).isEmpty = true := by rw [hp]; rfl
    constructor
    · simp only [cycleCheck, he, if_true, hz]
    · intro chunk
      simp only [cycleCheck, he, if_true, hz]
      simp
  · intro hp hz
    have he : (pendingFilter files).isEmpty = true := by rw [hp]; rfl
    simp only [cycleCheck, he, if_true, hz]
    simp
  · intro i f h
    unfold healZombies
    rw [List.getElem?_map, h]
    rfl

theorem c6_zombie_healing_witness :
    pendingFilter [⟨"r1", "a", none, Status.processing, none⟩] = []
      ∧ ([⟨"r1", "a", none, Status.processing, none⟩] : List ProcessedFile).any
          (fun f => f.status == Status.processing) = true
      ∧ cycleCheck [⟨"r1", "a", none, Status.processing, none⟩]
        = CycleDecision.heal (healZombies [⟨"r1", "a", none, Status.processing, none⟩]) :=
  ⟨by decide, by decide,
    ((c6_zombie_healing [⟨"r1", "a", none, Status.processing, none⟩]).1 (by decide) (by decide)).1⟩

/-- C7: chunk selection takes exactly the first n Pending records in enqueue
    order: the chunk is a prefix of the pending filter, a sublist of the queue
    (so relative order is preserved and non-Pending records are skipped
    without reordering), all its members are Pending, its length is the
    minimum of n and the number of Pending records, and on three Pending
    records A, B, C with chunk size 2 it is exactly A, B. -/
theorem c7_fifo_selection :
    (∀ (n : Nat) (files : List ProcessedFile),
      (∃ rest, pendingFilter files = selectChunk n files ++ rest)
      ∧ List.Sublist (selectChunk n files) files
      ∧ (selectChunk n files).all (fun f => f.status == Status.pending) = true
      ∧ (selectChunk n files).length = min n (pendingFilter files).length)
    ∧ selectChunk 2
        [⟨"A", "A.png", none, Status.pending, none⟩, ⟨"B", "B.png", none, Status.pending, none⟩,
          ⟨"C", "C.png", none, Status.pending, none⟩]
      = [⟨"A", "A.png", none, Status.pending, none⟩, ⟨"B", "B.png", none, Status.pending, none⟩] := by
  constructor
  · intro n files
    refine ⟨⟨(pendingFilter files).drop n, (List.take_append_drop n _).symm⟩, ?_, ?_, ?_⟩
    · exact (List.take_sublist n _).trans (List.filter_sublist files)
    · rw [List.all_eq_true]
      intro f hf
      have hmem : f ∈ pendingFilter files := List.mem_of_mem_take hf
      exact (List.mem_filter.mp hmem).2
    · exact List.length_take n _
  · decide

/-- C8: merging a successful oracle response transitions a chunk record with
    no matching result id to Error, a matched chunk record to Completed with
    its resolved unique name (resolved against the registry as extended by the
    records merged before it) and its sanitized metadata, and leaves every
    record outside the chunk unchanged. -/
theorem c8_schema_mismatch (ci : List String) (cd : List ChunkData)
    (rs : List BatchResult) (used : List String) (files : List ProcessedFile)
    (i : Nat) (f : ProcessedFile) (h : files[i]? = some f) :
    (ci.contains f.id = false → ((mergeFold ci cd rs files used).1)[i]? = some f)
    ∧ (ci.contains f.id = true → rs.find? (fun r => r.id == f.id) = none →
        ((mergeFold ci cd rs files used).1)[i]? = some { f with status := Status.error })
    ∧ (∀ res, ci.contains f.id = true → rs.find? (fun r => r.id == f.id) = some res →
        ((mergeFold ci cd rs files used).1)[i]?
          = some { f with
              status := Status.completed
              newName := some (resolveUnique (baseNameFor cd f.id res)
                ((mergeFold ci cd rs (files.take i) used).2))
              metadata := some ⟨sanitizePart res.english false, sanitizePart res.chinese false,
                sanitizePart res.domain true⟩ }) := by
  refine ⟨?_, ?_, ?_⟩
  · intro hmem
    rw [mergeFold_get? ci cd rs files used i f h, mergeOne_not_mem ci cd rs _ f hmem]
  · intro hmem hfind
    rw [mergeFold_get? ci cd rs files used i f h, mergeOne_no_result ci cd rs _ f hmem hfind]
  · intro res hmem hfind
    rw [mergeFold_get? ci cd rs files used i f h, mergeOne_found ci cd rs _ f res hmem hfind]

theorem c8_schema_mismatch_witness :
    (([⟨"r1", "a", none, Status.processing, none⟩] : List ProcessedFile)[0]?
        = some ⟨"r1", "a", none, Status.processing, none⟩)
      ∧ (["r1"] : List String).contains "r1" = true
      ∧ (List.find? (fun r => r.id == "r1") ([] : List BatchResult) = none)
      ∧ ((mergeFold ["r1"] [] [] [⟨"r1", "a", none, Status.processing, none⟩] []).1)[0]?
        = some ⟨"r1", "a", none, Status.error, none⟩ :=
  ⟨by decide, by decide, by decide,
    (c8_schema_mismatch ["r1"] [] [] [] [⟨"r1", "a", none, Status.processing, none⟩] 0
      ⟨"r1", "a", none, Status.processing, none⟩ (by decide)).2.1 (by decide) (by decide)⟩

/-- C9: a call whose response text is empty returns the empty result list
    without raising and without retrying, and a merge with an empty result
    list transitions every chunk record to Error while leaving records outside
    the chunk unchanged. -/
theorem c9_empty_response :
    (∀ oracle : Nat → CallOutcome, oracle 0 = CallOutcome.emptyText →
      analyzeFilenamesBatch oracle = (Except.ok [], []))
    ∧ (∀ (ci : List String) (cd : List ChunkData) (used : List String)
        (files : List ProcessedFile) (i : Nat) (f : ProcessedFile),
        files[i]? = some f →
        ((mergeFold ci cd [] files used).1)[i]?
          = some (if ci.contains f.id then { f with status := Status.error } else f)) := by
  constructor
  · intro oracle h
    simp [analyzeFilenamesBatch, attemptLoop, h]
  · intro ci cd used files i f h
    by_cases hmem : ci.contains f.id = true
    · rw [mergeFold_get? ci cd [] files used i f h,
        mergeOne_no_result ci cd [] _ f hmem rfl, if_pos hmem]
    · have hmem' : ci.contains f.id = false := by
        cases hb : ci.contains f.id
        · rfl
        · exact absurd hb hmem
      rw [mergeFold_get? ci cd [] files used i f h, mergeOne_not_mem ci cd [] _ f hmem',
        if_neg hmem]

theorem c9_empty_response_witness :
    ((fun _ => CallOutcome.emptyText) : Nat → CallOutcome) 0 = CallOutcome.emptyText
      ∧ analyzeFilenamesBatch (fun _ => CallOutcome.emptyText) = (Except.ok [], []) :=
  ⟨rfl, c9_empty_response.1 (fun _ => CallOutcome.emptyText) rfl⟩

/-- C10: with pairwise distinct record ids, per-record deletion keeps every
    record whose id differs from the given id entirely unchanged in its
    original relative order (the result is a sublist of the queue), removes
    only records with the given id, and removes at most one record. -/
theorem c10_delete_frame (id : String) (files : List ProcessedFile)
    (hnd : (files.map (fun f => f.id)).Nodup) :
    List.Sublist (handleDeleteFile id files) files
    ∧ (∀ f, f ∈ files → ¬ f.id = id → f ∈ handleDeleteFile id files)
    ∧ (∀ f, f ∈ handleDeleteFile id files → ¬ f.id = id)
    ∧ files.length ≤ (handleDeleteFile id files).length + 1 := by
  refine ⟨List.filter_sublist files, ?_, ?_, ?_⟩
  · intro f hf hne
    unfold handleDeleteFile
    rw [List.mem_filter]
    refine ⟨hf, ?_⟩
    cases hb : f.id == id
    · rfl
    · exact absurd (beq_iff_eq.mp hb) hne
  · intro f hf
    unfold handleDeleteFile at hf
    have := (List.mem_filter.mp hf).2
    intro hcon
    rw [hcon] at this
    simp at this
  · induction files with
    | nil => simp [handleDeleteFile]
    | cons f fs ih =>
      rw [List.map_cons, List.nodup_cons] at hnd
      unfold handleDeleteFile
      rw [List.filter_cons]
      by_cases hb : (f.id == id) = true
      · have hba : (!(f.id == id)) = false := by rw [hb]; rfl
        have hall : fs.filter (fun g => !(g.id == id)) = fs := by
          rw [List.filter_eq_self]
          intro g hg
          cases hgb : g.id == id
          · rfl
          · exfalso
            apply hnd.1
            have h1 : f.id = id := beq_iff_eq.mp hb
            have h2 : g.id = id := beq_iff_eq.mp hgb
            rw [h1, ← h2]
            exact List.mem_map_of_mem (fun f => f.id) hg
        simp only [hba, Bool.false_eq_true, if_false, hall, List.length_cons]
        omega
      · have hba : (!(f.id == id)) = true := by
          cases hx : f.id == id
          · rfl
          · exact absurd hx hb
        have hlen := ih hnd.2
        unfold handleDeleteFile at hlen
        simp only [hba, if_true, List.length_cons]
        omega

theorem c10_delete_frame_witness :
    ((([⟨"r1", "a", none, Status.pending, none⟩, ⟨"r2", "b", none, Status.pending, none⟩] :
        List ProcessedFile).map (fun f => f.id)).Nodup)
      ∧ handleDeleteFile "r1"
          [⟨"r1", "a", none, Status.pending, none⟩, ⟨"r2", "b", none, Status.pending, none⟩]
        = [⟨"r2", "b", none, Status.pending, none⟩]
      ∧ ([⟨"r1", "a", none, Status.pending, none⟩, ⟨"r2", "b", none, Status.pending, none⟩] :
          List ProcessedFile).length
        ≤ (handleDeleteFile "r1"
            [⟨"r1", "a", none, Status.pending, none⟩, ⟨"r2", "b", none, Status.pending, none⟩]).length + 1 :=
  ⟨by decide, by decide,
    (c10_delete_frame "r1"
      [⟨"r1", "a", none, Status.pending, none⟩, ⟨"r2", "b", none, Status.pending, none⟩]
      (by decide)).2.2.2⟩

end BatchRename
